import Mathlib

/-!
Verification development for the InsightLite client SDK core
(privacy sanitization, sampling, batching, transport retry, config
validation, device-performance scoring).

Strings are modelled as `List Char` (JS strings are sequences of UTF-16
code units; all characters appearing here are BMP code points, so one
`Char` corresponds to one code unit).  JS 32-bit integer arithmetic is
modelled on `Int` with explicit reduction modulo 2^32.  JS `number`
values used in comparisons are modelled as `ℚ`.
-/

/-- Character of a string at index `i`; out-of-range reads yield a space
(a definite non-word character), mirroring the fact that JS regex
boundary tests treat positions outside the string as non-word context. -/
def chAt (S : List Char) (i : Nat) : Char := S.getD i ' '

/-- JS regex `\d`. -/
def digitChar (c : Char) : Bool := decide (48 ≤ c.toNat ∧ c.toNat ≤ 57)

/-- JS regex `\w` = `[A-Za-z0-9_]`. -/
def wordChar (c : Char) : Bool :=
  digitChar c || decide (97 ≤ c.toNat ∧ c.toNat ≤ 122)
    || decide (65 ≤ c.toNat ∧ c.toNat ≤ 90) || decide (c.toNat = 95)

/-- JS regex `\s` (restricted to the common whitespace code points; the
choice of exact whitespace set does not affect any theorem below, as long
as it contains no word characters and not the mask character). -/
def spaceChar (c : Char) : Bool :=
  decide (c.toNat = 32 ∨ c.toNat = 9 ∨ c.toNat = 10 ∨ c.toNat = 13 ∨
    c.toNat = 11 ∨ c.toNat = 12 ∨ c.toNat = 160)

/-- Character class `[\w\.-]` used by the email pattern. -/
def wdotChar (c : Char) : Bool := wordChar c || decide (c.toNat = 46 ∨ c.toNat = 45)

/-- Literal `@`. -/
def atChar (c : Char) : Bool := decide (c.toNat = 64)

/-- Literal `.` (escaped dot in the patterns). -/
def dotChar (c : Char) : Bool := decide (c.toNat = 46)

/-- Character class `[-.\s]` (phone separators). -/
def sepChar (c : Char) : Bool := decide (c.toNat = 45 ∨ c.toNat = 46) || spaceChar c

/-- Character class `[-\s]` (SSN / credit-card separators). -/
def sep2Char (c : Char) : Bool := decide (c.toNat = 45) || spaceChar c

/-- Literal `(`. -/
def lparChar (c : Char) : Bool := decide (c.toNat = 40)

/-- Literal `)`. -/
def rparChar (c : Char) : Bool := decide (c.toNat = 41)

/-- Literal `+` (escaped in the phone pattern). -/
def plusSignChar (c : Char) : Bool := decide (c.toNat = 43)

/-- Literal `1` (the digit in the `+1` phone prefix). -/
def oneDigitChar (c : Char) : Bool := decide (c.toNat = 49)

/-- `PrivacyEngine.maskChar = '●'` (U+25CF). -/
def maskC : Char := '●'

/-- `PrivacyEngine.blockChar = '█'` (U+2588), used by `anonymizeText`. -/
def blockC : Char := '█'

/-!
## Regex embedding

The five `dataPatterns` regexes of `privacy.ts` use only: single-character
classes, `?`, `+`, bounded counts `{n}` / `{lo,hi}`, one optional group
`(?:\+1[-.\s]?)?`, and the word-boundary anchor `\b` at both ends.
Counted groups `(?:X){3}` are unrolled to three copies (an exact
equivalence of ECMAScript matching, including backtracking priority).
An atom list denotes the body between the two `\b` anchors.
-/

/-- Regex atoms sufficient for the five redaction patterns. -/
inductive RE where
  | one (c : Char → Bool)
  | opt (c : Char → Bool)
  | plus (c : Char → Bool)
  | betw (lo hi : Nat) (c : Char → Bool)
  | grp3opt (a b c : Char → Bool)

/-- Length of the maximal run of characters satisfying `c` starting at `i`. -/
def runLen (c : Char → Bool) (S : List Char) (i : Nat) : Nat :=
  if h : i < S.length then
    (if c (chAt S i) then runLen c S (i + 1) + 1 else 0)
  else 0
termination_by S.length - i
decreasing_by omega

/-- End positions `i+r, i+r-1, …, i+lo` in decreasing (greedy-first) order. -/
def descEnds (i r lo : Nat) : List Nat :=
  (List.range (r + 1 - lo)).map (fun k => i + r - k)

/-- All end positions an atom can reach from position `i`, in ECMAScript
backtracking priority order (greedy alternatives first). -/
def atomEnds (a : RE) (S : List Char) (i : Nat) : List Nat :=
  match a with
  | .one c => if i < S.length && c (chAt S i) then [i + 1] else []
  | .opt c => if i < S.length && c (chAt S i) then [i + 1, i] else [i]
  | .plus c => descEnds i (runLen c S i) 1
  | .betw lo hi c => descEnds i (min (runLen c S i) hi) lo
  | .grp3opt a b c =>
      if i + 1 < S.length && a (chAt S i) && b (chAt S (i + 1)) then
        (if i + 2 < S.length && c (chAt S (i + 2)) then [i + 3, i + 2] else [i + 2]) ++ [i]
      else [i]

/-- All end positions a sequence of atoms can reach from `i`, in
backtracking priority order. -/
def seqEnds (rs : List RE) (S : List Char) (i : Nat) : List Nat :=
  match rs with
  | [] => [i]
  | r :: rs => (atomEnds r S i).flatMap (fun j => seqEnds rs S j)

/-- Whether the character at index `i` is a word character (`false` out of
range, as in ECMAScript `\b` evaluation). -/
def wordAt (S : List Char) (i : Nat) : Bool :=
  decide (i < S.length) && wordChar (chAt S i)

/-- ECMAScript word boundary `\b` at position `i`. -/
def boundaryAt (S : List Char) (i : Nat) : Bool :=
  ((decide (0 < i)) && wordAt S (i - 1)) != wordAt S i

/-- First match of pattern `p` (body between two `\b` anchors) starting at
exactly position `i`; returns the end position chosen by ECMAScript
backtracking (first body parse, in priority order, whose end satisfies
the closing `\b`). -/
def matchAt (p : List RE) (S : List Char) (i : Nat) : Option Nat :=
  if boundaryAt S i then (seqEnds p S i).find? (fun j => boundaryAt S j) else none

/-- Global-replace scan of `String.replace(pattern, m => maskChar.repeat(m.length))`
from position `i`: left-to-right, each match replaced by mask characters of
the same length, scanning resumes at the match end. -/
def scanFrom (p : List RE) (S : List Char) (i : Nat) : List Char :=
  if h : i < S.length then
    match matchAt p S i with
    | some j =>
        if h2 : i < j then List.replicate (j - i) maskC ++ scanFrom p S j
        else chAt S i :: scanFrom p S (i + 1)
    | none => chAt S i :: scanFrom p S (i + 1)
  else []
termination_by S.length - i
decreasing_by all_goals omega

/-- One `sanitized.replace(pattern, match => this.maskChar.repeat(match.length))`
step of `PrivacyEngine.sanitizeTextPatterns`. -/
def replacePattern (p : List RE) (S : List Char) : List Char := scanFrom p S 0

/-- `/\b[\w\.-]+@[\w\.-]+\.\w+\b/` (email). -/
def emailPattern : List RE :=
  [.plus wdotChar, .one atChar, .plus wdotChar, .one dotChar, .plus wordChar]

/-- `/\b(?:\+1[-.\s]?)?\(?[0-9]{3}\)?[-.\s]?[0-9]{3}[-.\s]?[0-9]{4}\b/` (phone). -/
def phonePattern : List RE :=
  [.grp3opt plusSignChar oneDigitChar sepChar, .opt lparChar,
   .betw 3 3 digitChar, .opt rparChar, .opt sepChar,
   .betw 3 3 digitChar, .opt sepChar, .betw 4 4 digitChar]

/-- `/\b\d{3}[-\s]?\d{2}[-\s]?\d{4}\b/` (SSN). -/
def ssnPattern : List RE :=
  [.betw 3 3 digitChar, .opt sep2Char, .betw 2 2 digitChar, .opt sep2Char,
   .betw 4 4 digitChar]

/-- `/\b(?:\d{4}[-\s]?){3}\d{4}\b/` (credit card), with the counted group
unrolled. -/
def creditCardPattern : List RE :=
  [.betw 4 4 digitChar, .opt sep2Char, .betw 4 4 digitChar, .opt sep2Char,
   .betw 4 4 digitChar, .opt sep2Char, .betw 4 4 digitChar]

/-- `/\b(?:[0-9]{1,3}\.){3}[0-9]{1,3}\b/` (IP address), with the counted
group unrolled. -/
def ipAddressPattern : List RE :=
  [.betw 1 3 digitChar, .one dotChar, .betw 1 3 digitChar, .one dotChar,
   .betw 1 3 digitChar, .one dotChar, .betw 1 3 digitChar]

/-- The ordered `dataPatterns` map of `PrivacyEngine.initializePatterns`
(JS `Map` iterates in insertion order). -/
def dataPatterns : List (List RE) :=
  [emailPattern, phonePattern, ssnPattern, creditCardPattern, ipAddressPattern]

/-- `PrivacyEngine.sanitizeTextPatterns`: fold the five global replaces,
in `dataPatterns` order, over the input string. -/
def sanitizeTextPatterns (s : List Char) : List Char :=
  dataPatterns.foldl (fun acc p => replacePattern p acc) s

/-- Chains of `replacePattern` applications with patterns drawn from
`dataPatterns`: `Steps S T` holds when `T` arises from `S` by applying
some (possibly empty) sequence of the five global replaces.  Used to
relate intermediate strings of `sanitizeTextPatterns` to its output. -/
inductive Steps : List Char → List Char → Prop where
  | refl (S : List Char) : Steps S S
  | step (p : List RE) (S T : List Char) (hp : p ∈ dataPatterns)
      (h : Steps (replacePattern p S) T) : Steps S T

/-- `atomAll P a`: every character a parse of atom `a` can consume
satisfies `P`. -/
def atomAll (P : Char → Prop) : RE → Prop
  | .one c => ∀ ch, c ch = true → P ch
  | .opt c => ∀ ch, c ch = true → P ch
  | .plus c => ∀ ch, c ch = true → P ch
  | .betw _ _ c => ∀ ch, c ch = true → P ch
  | .grp3opt a b c =>
      (∀ ch, a ch = true → P ch) ∧ (∀ ch, b ch = true → P ch) ∧
        (∀ ch, c ch = true → P ch)

/-!
## JS values and `PrivacyEngine.sanitizeData`

`JSValue` models the JSON-like payload values the SDK passes through the
privacy engine.  The `exotic` constructor models a JS host object whose
property enumeration throws (the only way plain data traversal in
`_sanitizeValue` can raise), so that the `try/catch` recovery path of
`sanitizeData` is reachable in the model.  Object-identity cycles cannot
exist in an immutable value tree, so the `visited` set of the source
never fires and is modelled as always-miss.
-/

inductive JSValue where
  | null
  | undef
  | boolV (b : Bool)
  | numV (n : Int)
  | strV (s : List Char)
  | arrV (elems : List JSValue)
  | objV (fields : List (List Char × JSValue))
  | exotic (name : List Char)

/-- Decimal digits of a natural number (for JS `String(number)`),
written with a structural fuel bound (`fuel ≥ number of digits` always
holds for the wrapper below, so this computes the full digit string). -/
def natToDecGo (fuel n : Nat) : List Char :=
  match fuel with
  | 0 => []
  | fuel + 1 =>
      if n < 10 then [Char.ofNat (48 + n)]
      else natToDecGo fuel (n / 10) ++ [Char.ofNat (48 + n % 10)]

def natToDec (n : Nat) : List Char := natToDecGo (n + 1) n

/-- JS `String(n)` for an integer. -/
def intToDec (n : Int) : List Char :=
  if n < 0 then '-' :: natToDec n.natAbs else natToDec n.natAbs

mutual
/-- JS `String(value)` (ToString) for the modelled values. -/
def jsString : JSValue → List Char
  | .null => "null".toList
  | .undef => "undefined".toList
  | .boolV true => "true".toList
  | .boolV false => "false".toList
  | .numV n => intToDec n
  | .strV s => s
  | .arrV xs => jsStringElems xs
  | .objV _ => "[object Object]".toList
  | .exotic _ => "[object Object]".toList
/-- JS `Array.prototype.toString`: elements joined by `,`, with `null`
and `undefined` elements rendered empty. -/
def jsStringElems : List JSValue → List Char
  | [] => []
  | [x] => jsStringElem x
  | x :: y :: xs => jsStringElem x ++ ',' :: jsStringElems (y :: xs)
def jsStringElem : JSValue → List Char
  | .null => []
  | .undef => []
  | v => jsString v
end

/-- `PrivacyEngine.maskValue`: empty string for null/undefined, otherwise
the mask character repeated to the length of `String(value)`. -/
def maskValue (v : JSValue) : List Char :=
  match v with
  | .null => []
  | .undef => []
  | v => List.replicate (jsString v).length maskC

/-- JS `String.prototype.includes` (substring containment). -/
def containsSub (hay pat : List Char) : Bool :=
  (List.range (hay.length + 1)).any (fun i => ((hay.drop i).take pat.length) == pat)

/-- The curated `sensitiveFields` list of `PrivacyEngine.isSensitiveField`. -/
def sensitiveFields : List (List Char) :=
  ["email".toList, "password".toList, "pass".toList, "pwd".toList,
   "token".toList, "key".toList, "firstname".toList, "lastname".toList,
   "phone".toList, "tel".toList, "mobile".toList, "ssn".toList,
   "social".toList, "creditcard".toList, "cardnumber".toList,
   "userid".toList, "customerid".toList, "sessionid".toList]

/-- `PrivacyEngine.isSensitiveField`: lower-case the key, strip `-`/`_`,
and test whether any curated sensitive name occurs as a substring. -/
def isSensitiveField (fieldName : List Char) : Bool :=
  let normalizedField :=
    (fieldName.map Char.toLower).filter (fun c => !(c == '-' || c == '_'))
  sensitiveFields.any (fun sensitive => containsSub normalizedField sensitive)

mutual
/-- `PrivacyEngine._sanitizeValue`, with JS exceptions modelled by
`Except`: strings are pattern-scanned, arrays and objects are traversed
recursively, values under sensitive keys are masked wholesale, other
primitives pass through; enumerating an `exotic` value throws. -/
def sanitizeValueE : JSValue → Except (List Char) JSValue
  | .null => .ok .null
  | .undef => .ok .undef
  | .boolV b => .ok (.boolV b)
  | .numV n => .ok (.numV n)
  | .strV s => .ok (.strV (sanitizeTextPatterns s))
  | .exotic e => .error e
  | .arrV xs =>
      match sanitizeListE xs with
      | .ok ys => .ok (.arrV ys)
      | .error e => .error e
  | .objV fs =>
      match sanitizeFieldsE fs with
      | .ok gs => .ok (.objV gs)
      | .error e => .error e
def sanitizeListE : List JSValue → Except (List Char) (List JSValue)
  | [] => .ok []
  | x :: xs =>
      match sanitizeValueE x with
      | .ok y =>
          match sanitizeListE xs with
          | .ok ys => .ok (y :: ys)
          | .error e => .error e
      | .error e => .error e
def sanitizeFieldsE :
    List (List Char × JSValue) → Except (List Char) (List (List Char × JSValue))
  | [] => .ok []
  | (k, v) :: fs =>
      if isSensitiveField k then
        match sanitizeFieldsE fs with
        | .ok gs => .ok ((k, .strV (maskValue v)) :: gs)
        | .error e => .error e
      else
        match sanitizeValueE v with
        | .ok w =>
            match sanitizeFieldsE fs with
            | .ok gs => .ok ((k, w) :: gs)
            | .error e => .error e
        | .error e => .error e
end

/-- `PrivacyEngine.sanitizeData`: null/undefined returned as-is; otherwise
`_sanitizeValue` inside `try/catch`, the catch returning the original data
after a `console.warn` (modelled by the `Bool` component; the source has
no debug flag in `PrivacyEngine`, so the `debug` parameter is ignored
exactly as the source ignores it). -/
def sanitizeData (debug : Bool) (data : JSValue) : JSValue × Bool :=
  match data with
  | .null => (data, false)
  | .undef => (data, false)
  | _ =>
      match sanitizeValueE data with
      | .ok r => (r, false)
      | .error _ => (data, true)

/-- `PrivacyEngine.sanitizeData` seen from the caller, before the
`try/catch` result is committed: an `Except`-valued semantics in which
an uncaught exception would appear as `.error`.  The function body is the
same try/catch as `sanitizeData`, so proving it always returns `.ok`
states that no exception ever propagates to the caller. -/
def sanitizeDataE (debug : Bool) (data : JSValue) :
    Except (List Char) (JSValue × Bool) :=
  match data with
  | .null => .ok (data, false)
  | .undef => .ok (data, false)
  | _ =>
      match sanitizeValueE data with
      | .ok r => .ok (r, false)
      | .error _ => .ok (data, true)

/-!
## The 32-bit rolling hash (`SessionManager.hashString`,
`PrivacyEngine.hashSessionId`)

`hash = ((hash << 5) - hash) + char; hash = hash & hash` in JS is: shift
the 32-bit value left by 5 (wrapping to a signed 32-bit integer), subtract
and add exactly (the magnitudes stay far below 2^53), then truncate to a
signed 32-bit integer via `& `.
-/

/-- ECMAScript ToInt32. -/
def toInt32 (n : Int) : Int := (n + 2147483648) % 4294967296 - 2147483648

/-- One loop iteration of `SessionManager.hashString`. -/
def hashStep (hash : Int) (char : Nat) : Int :=
  toInt32 (toInt32 (hash * 32) - hash + char)

/-- The signed 32-bit rolling hash over a list of UTF-16 code units. -/
def hashRoll (codes : List Nat) : Int := codes.foldl hashStep 0

/-- `SessionManager.hashString`: the rolling hash followed by `Math.abs`. -/
def hashString (codes : List Nat) : Nat := (hashRoll codes).natAbs

/-- UTF-16 code units of a (BMP) string. -/
def strCodes (s : List Char) : List Nat := s.map Char.toNat

/-- JS `Number.prototype.toString(36)` digit. -/
def base36Digit (d : Nat) : Char :=
  if d < 10 then Char.ofNat (48 + d) else Char.ofNat (87 + d)

/-- JS `n.toString(36)` for a natural number, with a structural fuel
bound (`fuel ≥ number of digits` always holds for the wrapper below). -/
def toBase36Go (fuel n : Nat) : List Char :=
  match fuel with
  | 0 => []
  | fuel + 1 =>
      if n < 36 then [base36Digit n]
      else toBase36Go fuel (n / 36) ++ [base36Digit (n % 36)]

def toBase36 (n : Nat) : List Char := toBase36Go (n + 1) n

/-- One loop iteration of `PrivacyEngine.hashSessionId` (the same rolling
step, written in `privacy.ts`). -/
def peHashStep (hash : Int) (char : Nat) : Int :=
  toInt32 (toInt32 (hash * 32) - hash + char)

/-- `PrivacyEngine.hashSessionId`: hash of `` `${sessionId}:${siteId}` ``
then `Math.abs(hash).toString(36)`. -/
def hashSessionId (sessionId siteId : List Char) : List Char :=
  toBase36 ((strCodes (sessionId ++ ':' :: siteId)).foldl peHashStep 0).natAbs

/-- `SessionManager.getAnonymizedSessionId`:
`hashString(`${sessionId}:${siteId}`).toString(36)` (via the
`SessionManager.hashString` helper). -/
def getAnonymizedSessionId (sessionId siteId : List Char) : List Char :=
  toBase36 (hashString (strCodes (sessionId ++ ':' :: siteId)))

/-!
## `SessionManager` sampling
-/

/-- `SessionManager.makeSamplingDecision`: hash the session id, reduce
modulo 10000, normalize into `[0,1)`, compare with the sample rate. -/
def makeSamplingDecision (sessionId : List Nat) (sampleRate : ℚ) : Bool :=
  let hash := hashString sessionId
  let normalized : ℚ := ((hash % 10000 : Nat) : ℚ) / 10000
  decide (normalized < sampleRate)

/-- `SessionManager.shouldTrackSession`: memoizes the decision in the
`samplingDecision` field (`none` = the JS `null` initial state); returns
the decision and the updated state. -/
def shouldTrackSession (samplingDecision : Option Bool) (sessionId : List Nat)
    (sampleRate : ℚ) : Bool × Option Bool :=
  match samplingDecision with
  | some b => (b, some b)
  | none =>
      let d := makeSamplingDecision sessionId sampleRate
      (d, some d)

/-- The results of a sequence of `shouldTrackSession` calls (one per rate
in the list) within one session, threading the memoized state. -/
def trackSessionCalls (sessionId : List Nat) :
    Option Bool → List ℚ → List Bool
  | _, [] => []
  | st, r :: rs =>
      let p := shouldTrackSession st sessionId r
      p.1 :: trackSessionCalls sessionId p.2 rs

/-!
## `EventTransport` error classification and retry
-/

/-- `error.message.match(/HTTP (\d+)/)` followed by `parseInt`: find the
leftmost occurrence of `HTTP ` followed by at least one digit and parse
the maximal digit run. -/
def decVal (ds : List Char) : Nat := ds.foldl (fun a c => a * 10 + (c.toNat - 48)) 0

def tryHttpAt (s : List Char) : Option Nat :=
  if (s.take 5) == "HTTP ".toList then
    match (s.drop 5).takeWhile digitChar with
    | [] => none
    | ds => some (decVal ds)
  else none

def extractHttpStatus : List Char → Option Nat
  | [] => none
  | c :: rest =>
      match tryHttpAt (c :: rest) with
      | some n => some n
      | none => extractHttpStatus rest

/-- `EventTransport.isRetryableError`: network errors, timeouts, embedded
HTTP status ≥ 500 or = 429; an error carrying no recognizable HTTP status
defaults to retryable. -/
def isRetryableError (msg : List Char) : Bool :=
  if containsSub msg "Network error".toList then true
  else if containsSub msg "timeout".toList then true
  else
    match extractHttpStatus msg with
    | some status => decide (500 ≤ status) || decide (status = 429)
    | none => true

/-- The retry decision of `EventTransport.handleSendError`: retry exactly
when the error is classified retryable and `retryCount < maxRetries`. -/
def retryScheduled (msg : List Char) (retryCount maxRetries : Nat) : Bool :=
  isRetryableError msg && decide (retryCount < maxRetries)

/-- The retryable class exactly as the claim words it (network failure,
timeout, HTTP ≥ 500, HTTP 429) — with no default for unclassifiable
errors.  Stated from the spec for comparison with `isRetryableError`. -/
def claimRetryableClass (msg : List Char) : Bool :=
  containsSub msg "Network error".toList || containsSub msg "timeout".toList ||
    (match extractHttpStatus msg with
     | some status => decide (500 ≤ status) || decide (status = 429)
     | none => false)

/-- The `handleSendError` / `retryWithBackoff` loop after a first failed
attempt whose every retry fails again with the same error: returns
(number of further attempts, backoff delays in order, number of `error`
notifications emitted).  `retryWithBackoff` increments `retryCount` and
sleeps `min(1000 * 2^(retryCount-1), 30000)` ms before re-attempting. -/
def afterFailure (msg : List Char) (maxRetries retryCount : Nat) :
    Nat × List Nat × Nat :=
  if h : isRetryableError msg = true ∧ retryCount < maxRetries then
    let delay := min (1000 * 2 ^ retryCount) 30000
    let r := afterFailure msg maxRetries (retryCount + 1)
    (r.1 + 1, delay :: r.2.1, r.2.2)
  else (0, [], 1)
termination_by maxRetries - retryCount
decreasing_by omega

/-- `EventTransport.sendBatch` for a batch whose every send attempt fails
with error `msg`: total attempts, backoff delays, `error` notifications. -/
def sendBatchAllFail (msg : List Char) (maxRetries : Nat) : Nat × List Nat × Nat :=
  let r := afterFailure msg maxRetries 0
  (r.1 + 1, r.2.1, r.2.2)

/-!
## `EventCollector.addEvent`
-/

/-- `EventCollector.addEvent`: gate on `shouldCollectEvent` (abstracted to
a boolean, it does not read the buffer), push, and if the buffer exceeds
`flushSize * 2` keep only the most recent `flushSize` events
(`slice(-flushSize)`). -/
def addEvent (collect : Bool) (flushSize : Nat) (events : List Nat) (e : Nat) :
    List Nat :=
  if collect then
    let evs := events ++ [e]
    if decide (flushSize * 2 < evs.length) then evs.drop (evs.length - flushSize)
    else evs
  else events

/-!
## `InsightLiteSDK.validateConfig`
-/

/-- The validated fields of the construction configuration (`none` models
an absent field; a present field carries its numeric value as `ℚ`). -/
structure InsightLiteConfig where
  siteId : Option (List Char)
  sampleRate : Option ℚ
  flushInterval : Option ℚ
  flushSize : Option ℚ
  maxRetries : Option ℚ

/-- JS `String.prototype.trim`. -/
def jsTrim (s : List Char) : List Char :=
  ((s.dropWhile spaceChar).reverse.dropWhile spaceChar).reverse

/-- The `flushSize` check at the end of `InsightLiteSDK.validateConfig`. -/
def validateConfigLast (config : InsightLiteConfig) : Except (List Char) Unit :=
  match config.flushSize with
  | some f =>
      if f < 1 then .error "flushSize must be a positive number".toList
      else .ok ()
  | none => .ok ()

/-- The `flushInterval` check of `InsightLiteSDK.validateConfig`. -/
def validateConfigRest (config : InsightLiteConfig) : Except (List Char) Unit :=
  match config.flushInterval with
  | some i =>
      if i < 1000 then .error "flushInterval must be a number >= 1000ms".toList
      else validateConfigLast config
  | none => validateConfigLast config

/-- `InsightLiteSDK.validateConfig`: the exact check sequence of the
source (note: it contains no `maxRetries` check). -/
def validateConfig (config : InsightLiteConfig) : Except (List Char) Unit :=
  match config.siteId with
  | none => .error "siteId is required and must be a non-empty string".toList
  | some s =>
      if jsTrim s == [] then
        .error "siteId is required and must be a non-empty string".toList
      else
        match config.sampleRate with
        | some r =>
            if r < 0 ∨ 1 < r then
              .error "sampleRate must be a number between 0 and 1".toList
            else validateConfigRest config
        | none => validateConfigRest config

/-- The validity predicate actually enforced by the source. -/
def codeValid (config : InsightLiteConfig) : Bool :=
  (match config.siteId with
   | none => false
   | some s => !(jsTrim s == [])) &&
  (match config.sampleRate with
   | some r => decide (0 ≤ r ∧ r ≤ 1)
   | none => true) &&
  (match config.flushInterval with
   | some i => decide (1000 ≤ i)
   | none => true) &&
  (match config.flushSize with
   | some f => decide (1 ≤ f)
   | none => true)

/-- The validity predicate exactly as the claim words it (additionally
requires `maxRetries ≥ 0`).  Stated from the spec for comparison. -/
def claimValid (config : InsightLiteConfig) : Bool :=
  codeValid config &&
  (match config.maxRetries with
   | some m => decide (0 ≤ m)
   | none => true)

/-!
## `PerformanceMonitor.getDevicePerformanceScore` and the orchestrator's
low-performance exclusion
-/

/-- JS `x || dflt` on an optional number (`undefined` and `0` are falsy). -/
def jsOrNum (v : Option ℚ) (dflt : ℚ) : ℚ :=
  match v with
  | none => dflt
  | some x => if x = 0 then dflt else x

/-- The `effectiveTypes` table of `getDevicePerformanceScore`. -/
def effectiveTypes : List (List Char × ℚ) :=
  [("slow-2g".toList, 0), ("2g".toList, 1/20), ("3g".toList, 1/10),
   ("4g".toList, 1/5)]

def lookupQ (k : List Char) : List (List Char × ℚ) → Option ℚ
  | [] => none
  | (k2, v) :: rest => if k == k2 then some v else lookupQ k rest

/-- `PerformanceMonitor.getDevicePerformanceScore`.  `deviceMemory` and
`hardwareConcurrency` default to 4 via JS `||` (so a reported `0` also
becomes 4); the connection contribution is `effectiveTypes[type] || 0.2`
when a connection object exists, and is skipped entirely otherwise. -/
def getDevicePerformanceScore (deviceMemory hardwareConcurrency : Option ℚ)
    (connection : Option (List Char)) : ℚ :=
  let memory := jsOrNum deviceMemory 4
  let cores := jsOrNum hardwareConcurrency 4
  let base : ℚ := 1/2 + min (memory / 16) (3/10) + min (cores / 8) (1/5)
  let score :=
    match connection with
    | none => base
    | some t => base + jsOrNum (lookupQ t effectiveTypes) (1/5)
  min score 1

/-- The low-device-performance exclusion branch of
`InsightLiteSDK.shouldInitialize`: excluded iff the score is below 0.3. -/
def excludedByLowPerformance (deviceMemory hardwareConcurrency : Option ℚ)
    (connection : Option (List Char)) : Bool :=
  decide (getDevicePerformanceScore deviceMemory hardwareConcurrency connection < 3/10)

/-!
## Supporting lemmas
-/

theorem trackSessionCalls_memoized (sid : List Nat) (b : Bool) (rs : List ℚ) :
    trackSessionCalls sid (some b) rs = List.replicate rs.length b := by
  induction rs with
  | nil => rfl
  | cons r rs ih => simp [trackSessionCalls, shouldTrackSession, ih, List.replicate]

theorem afterFailure_retryable (msg : List Char) (h : isRetryableError msg = true) :
    ∀ n m rc, m - rc = n →
      afterFailure msg m rc =
        (n, (List.range' rc n).map (fun k => min (1000 * 2 ^ k) 30000), 1) := by
  intro n
  induction n with
  | zero =>
      intro m rc hn
      rw [afterFailure]
      rw [dif_neg (by omega)]
      rfl
  | succ n ih =>
      intro m rc hn
      rw [afterFailure]
      rw [dif_pos ⟨h, by omega⟩]
      rw [ih m (rc + 1) (by omega)]
      simp [List.range']

theorem afterFailure_not_retryable (msg : List Char) (m : Nat)
    (h : isRetryableError msg = false) : afterFailure msg m 0 = (0, [], 1) := by
  rw [afterFailure]
  rw [dif_neg (by simp [h])]

theorem isRetryableError_eq_class_or_default (msg : List Char) :
    isRetryableError msg =
      (claimRetryableClass msg || (extractHttpStatus msg).isNone) := by
  unfold isRetryableError claimRetryableClass
  cases hn : containsSub msg "Network error".toList <;>
    cases ht : containsSub msg "timeout".toList <;>
      cases hs : extractHttpStatus msg <;> simp [hn, ht, hs]

theorem lookupQ_effectiveTypes_nonneg (t : List Char) (v : ℚ)
    (h : lookupQ t effectiveTypes = some v) : 0 ≤ v := by
  simp only [effectiveTypes, lookupQ] at h
  repeat' split at h
  all_goals first
    | (injection h with h2; subst h2; norm_num)
    | exact absurd h (by simp)

theorem jsOrNum_nonneg (v : Option ℚ) (d : ℚ) (hd : 0 ≤ d)
    (hv : ∀ x, v = some x → 0 ≤ x) : 0 ≤ jsOrNum v d := by
  unfold jsOrNum
  cases v with
  | none => exact hd
  | some x =>
      by_cases hx : x = 0
      · simp [hx, hd]
      · simp [hx]; exact hv x rfl

/-!
## Claim theorems (sampling, error handling, retry, buffer, config,
hashing, performance)
-/

/-- C1: the session-admission decision equals
`(hashString(sessionId) % 10000) / 10000 < sampleRate` (where `hashString`
is the source's 32-bit rolling hash with `Math.abs`), and every
`shouldTrackSession` call within the same session — regardless of the
rates passed to later calls — returns the same boolean as the first call
(the decision is memoized, never re-rolled). -/
theorem shouldTrackSession_formula_memoized (sid : List Nat) (r : ℚ) (rs : List ℚ) :
    trackSessionCalls sid none (r :: rs) =
      List.replicate (rs.length + 1)
        (decide ((((hashString sid % 10000 : Nat) : ℚ) / 10000) < r)) := by
  have h1 : shouldTrackSession none sid r =
      (makeSamplingDecision sid r, some (makeSamplingDecision sid r)) := rfl
  simp only [trackSessionCalls, h1, trackSessionCalls_memoized]
  simp [makeSamplingDecision, List.replicate]

/-- C3 (amended): `sanitizeData` never lets an exception reach the caller
(the `Except`-level semantics always returns `.ok`); on an internal
sanitization error it returns the original input with the `console.warn`
log fired — unconditionally, for any value of the debug flag, because
`PrivacyEngine` consults no debug mode; null/undefined inputs are
returned unchanged without logging. -/
theorem sanitizeData_never_throws_returns_original (debug : Bool) (v : JSValue) :
    sanitizeDataE debug v = .ok (sanitizeData debug v) ∧
      (∀ e, sanitizeValueE v = .error e → sanitizeData debug v = (v, true)) ∧
      ((v = .null ∨ v = .undef) → sanitizeData debug v = (v, false)) := by
  refine ⟨?_, ?_, ?_⟩
  · cases v <;> first
      | rfl
      | (unfold sanitizeDataE sanitizeData
         repeat' split
         all_goals simp_all)
  · intro e he
    cases v <;> simp_all [sanitizeData, sanitizeValueE]
  · rintro (rfl | rfl) <;> rfl

/-- Witness for C3: a value whose traversal throws (a host object with a
throwing property enumeration) is returned unchanged and the warn fires,
with the debug flag off. -/
theorem sanitizeData_never_throws_witness :
    sanitizeData false (JSValue.exotic "x".toList) = (JSValue.exotic "x".toList, true) :=
  (sanitizeData_never_throws_returns_original false (JSValue.exotic "x".toList)).2.1
    "x".toList rfl

/-- C3 counterexample: the claim says the sanitization error is logged
*only in debug mode*, but the catch logs unconditionally — here the log
fires although debug is `false`. -/
theorem sanitizeData_logs_without_debug :
    (sanitizeData false (JSValue.exotic "x".toList)).2 = true := rfl

/-- C4 (amended): a retry is scheduled iff the error is classified
retryable — it is in the claim's class (network failure, timeout,
HTTP ≥ 500, HTTP 429) *or* carries no recognizable HTTP status (the
source defaults unclassifiable errors to retryable) — and fewer than
`maxRetries` retries have occurred.  A batch failing with HTTP 400 makes
exactly one send attempt, no backoff delay, and one `error`
notification. -/
theorem retry_iff_retryable_class_or_default :
    (∀ (msg : List Char) (rc m : Nat),
        retryScheduled msg rc m =
          ((claimRetryableClass msg || (extractHttpStatus msg).isNone) &&
            decide (rc < m))) ∧
    (∀ m : Nat, sendBatchAllFail "HTTP 400: Bad Request".toList m = (1, [], 1)) := by
  constructor
  · intro msg rc m
    unfold retryScheduled
    rw [isRetryableError_eq_class_or_default]
  · intro m
    unfold sendBatchAllFail
    rw [afterFailure_not_retryable _ _ (by decide)]

/-- C4 counterexample: an error from neither the network/timeout class
nor carrying an HTTP status (here the source's own
`'No valid events to send'`) is *not* in the claim's retryable class,
yet the code schedules a retry for it. -/
theorem retry_on_unclassified_error_cex :
    retryScheduled "No valid events to send".toList 0 3 = true ∧
    claimRetryableClass "No valid events to send".toList = false := by decide

/-- C5: for a batch whose sends keep failing with a retryable error, the
delay before the `k`-th retry is `min(1000·2^(k-1), 30000)` ms (the list
below is indexed from `k = 1`), exactly `maxRetries + 1` total attempts
occur, and the `error` notification fires exactly once. -/
theorem retryWithBackoff_delays_attempts (msg : List Char) (m : Nat)
    (h : isRetryableError msg = true) :
    sendBatchAllFail msg m =
      (m + 1, (List.range m).map (fun k => min (1000 * 2 ^ k) 30000), 1) := by
  unfold sendBatchAllFail
  rw [afterFailure_retryable msg h m m 0 (by omega)]
  simp [List.range_eq_range']

/-- Witness for C5: with `maxRetries = 3` and a network failure, four
attempts, delays `[1000, 2000, 4000]`, one `error` notification. -/
theorem retryWithBackoff_delays_witness :
    sendBatchAllFail "Network error".toList 3 = (4, [1000, 2000, 4000], 1) := by
  rw [retryWithBackoff_delays_attempts "Network error".toList 3 (by decide)]
  decide

/-- C7: after every `addEvent` the buffer holds at most `2·flushSize`
events, and an add that would exceed the bound trims the buffer to
exactly the most recent `flushSize` events — a suffix of the pushed
buffer, so newer events are never discarded before older ones. -/
theorem addEvent_bounded_trims_oldest (f : Nat) (events : List Nat) (e : Nat)
    (c : Bool) (hb : events.length ≤ f * 2) :
    (addEvent c f events e).length ≤ f * 2 ∧
      (c = true → f * 2 < events.length + 1 →
        addEvent c f events e = (events ++ [e]).drop (events.length + 1 - f) ∧
          (addEvent c f events e).length = f ∧
          addEvent c f events e <:+ (events ++ [e])) := by
  constructor
  · unfold addEvent
    cases c with
    | false => simpa using hb
    | true =>
        simp only [if_true]
        split
        · rename_i hlt
          rw [List.length_drop]
          simp only [List.length_append, List.length_singleton] at hlt ⊢
          omega
        · rename_i hge
          simp only [decide_eq_true_eq, not_lt] at hge
          simpa using hge
  · intro hc hover
    subst hc
    have hlen : (events ++ [e]).length = events.length + 1 := by simp
    have hcond : decide (f * 2 < (events ++ [e]).length) = true := by
      rw [hlen]; exact decide_eq_true hover
    have hform : addEvent true f events e =
        (events ++ [e]).drop (events.length + 1 - f) := by
      unfold addEvent
      rw [if_pos rfl, if_pos hcond, hlen]
    refine ⟨hform, ?_, ?_⟩
    · rw [hform, List.length_drop, hlen]
      omega
    · rw [hform]
      exact List.drop_suffix _ _

/-- Witness for C7: `flushSize = 2`, a full buffer of 4 events, adding a
fifth trims to the most recent two. -/
theorem addEvent_bounded_witness :
    addEvent true 2 [1, 2, 3, 4] 5 = [4, 5] ∧
      (addEvent true 2 [1, 2, 3, 4] 5).length = 2 := by
  have h := (addEvent_bounded_trims_oldest 2 [1, 2, 3, 4] 5 true (by decide)).2
    rfl (by decide)
  exact ⟨by rw [h.1]; decide, h.2.1⟩

theorem validateConfigLast_iff (c : InsightLiteConfig) :
    validateConfigLast c = .ok () ↔ (∀ f, c.flushSize = some f → 1 ≤ f) := by
  unfold validateConfigLast
  cases hfs : c.flushSize with
  | none => simp
  | some f =>
      dsimp only
      split_ifs with hf
      · constructor
        · intro h; exact absurd h (by simp)
        · intro h; exact absurd (h f rfl) (by linarith)
      · constructor
        · intro _ f2 hf2
          injection hf2 with hf3
          subst hf3
          linarith [not_lt.mp hf]
        · intro _; rfl

theorem validateConfigRest_iff (c : InsightLiteConfig) :
    validateConfigRest c = .ok () ↔
      ((∀ i, c.flushInterval = some i → 1000 ≤ i) ∧
        (∀ f, c.flushSize = some f → 1 ≤ f)) := by
  unfold validateConfigRest
  cases hfi : c.flushInterval with
  | none => simp [validateConfigLast_iff]
  | some i =>
      dsimp only
      split_ifs with hi
      · constructor
        · intro h; exact absurd h (by simp)
        · intro h; exact absurd (h.1 i rfl) (by linarith)
      · rw [validateConfigLast_iff]
        constructor
        · intro h
          refine ⟨?_, h⟩
          intro i2 hi2
          injection hi2 with hi3
          subst hi3
          linarith [not_lt.mp hi]
        · intro h; exact h.2

theorem codeValid_iff (c : InsightLiteConfig) :
    codeValid c = true ↔
      ((∃ s, c.siteId = some s ∧ jsTrim s ≠ []) ∧
        (∀ r, c.sampleRate = some r → 0 ≤ r ∧ r ≤ 1) ∧
        (∀ i, c.flushInterval = some i → 1000 ≤ i) ∧
        (∀ f, c.flushSize = some f → 1 ≤ f)) := by
  unfold codeValid
  cases c.siteId <;> cases c.sampleRate <;> cases c.flushInterval <;>
    cases c.flushSize <;> simp_all [and_assoc]

/-- C8 (amended): `validateConfig` succeeds iff `siteId` is present with
non-whitespace content, `sampleRate ∈ [0,1]` when given,
`flushInterval ≥ 1000` when given, and `flushSize ≥ 1` when given —
`maxRetries` is *not* validated. -/
theorem validateConfig_ok_iff (config : InsightLiteConfig) :
    validateConfig config = .ok () ↔ codeValid config = true := by
  rw [codeValid_iff]
  unfold validateConfig
  cases hsi : config.siteId with
  | none => simp [hsi]
  | some s =>
      dsimp only
      by_cases hts : (jsTrim s == []) = true
      · rw [if_pos hts]
        simp only [beq_iff_eq] at hts
        constructor
        · intro h; exact absurd h (by simp)
        · intro h
          obtain ⟨s2, hs2, hne⟩ := h.1
          injection hs2 with hs3
          subst hs3
          exact absurd hts hne
      · rw [if_neg hts]
        simp only [beq_iff_eq] at hts
        cases hsr : config.sampleRate with
        | none =>
            rw [validateConfigRest_iff]
            constructor
            · intro h
              refine ⟨⟨s, rfl, hts⟩, ?_, h.1, h.2⟩
              intro r hr
              cases hr
            · intro h; exact ⟨h.2.2.1, h.2.2.2⟩
        | some r =>
            dsimp only
            split_ifs with hr
            · constructor
              · intro h; exact absurd h (by simp)
              · intro h
                have h2 := h.2.1 r rfl
                rcases hr with hr | hr <;> linarith [h2.1, h2.2]
            · rw [validateConfigRest_iff]
              push_neg at hr
              constructor
              · intro h
                refine ⟨⟨s, rfl, hts⟩, ?_, h.1, h.2⟩
                intro r2 hr2
                injection hr2 with hr3
                subst hr3
                exact ⟨hr.1, hr.2⟩
              · intro h; exact ⟨h.2.2.1, h.2.2.2⟩

/-- C8 counterexample: a configuration with `maxRetries = -1` (and all
other constraints satisfied) passes `validateConfig` although the claim
requires construction to throw for `maxRetries` below 0. -/
theorem validateConfig_ignores_negative_maxRetries :
    validateConfig ⟨some "site".toList, none, none, none, some (-1)⟩ = .ok () ∧
    claimValid ⟨some "site".toList, none, none, none, some (-1)⟩ = false := by
  constructor
  · rfl
  · decide

/-- C9 (amended): the session-id anonymization hash is deterministic —
the two implementations, `PrivacyEngine.hashSessionId` and
`SessionManager.getAnonymizedSessionId`, agree on every input pair — and
different `siteId` values *can* produce different outputs, but not
always (32-bit hash collisions exist; see the counterexample). -/
theorem hashSessionId_deterministic_keyed :
    (∀ sessionId siteId : List Char,
        hashSessionId sessionId siteId = getAnonymizedSessionId sessionId siteId) ∧
    hashSessionId "s".toList "a".toList ≠ hashSessionId "s".toList "b".toList := by
  constructor
  · intro sessionId siteId
    rfl
  · decide

/-- C9 counterexample: two different `siteId` values (`"Aa"` and `"BB"`)
produce the same anonymized output for the same `sessionId` — the rolling
hash collides, so "different siteId ⇒ different output" is false. -/
theorem hashSessionId_siteId_collision :
    "Aa".toList ≠ "BB".toList ∧
    hashSessionId "s".toList "Aa".toList = hashSessionId "s".toList "BB".toList := by
  decide

/-- C10: for every reported device memory, core count and connection
class (including all defaults), `getDevicePerformanceScore` lies in
`[0.5, 1.0]`; hence the orchestrator's low-device exclusion (`score <
0.3`) never fires and no session is excluded on device-performance
grounds. -/
theorem devicePerformanceScore_bounds (dm hc : Option ℚ) (conn : Option (List Char))
    (hm : ∀ x, dm = some x → 0 ≤ x) (hcores : ∀ x, hc = some x → 0 ≤ x) :
    1/2 ≤ getDevicePerformanceScore dm hc conn ∧
      getDevicePerformanceScore dm hc conn ≤ 1 ∧
      excludedByLowPerformance dm hc conn = false := by
  have hmem : (0:ℚ) ≤ jsOrNum dm 4 := jsOrNum_nonneg dm 4 (by norm_num) hm
  have hcor : (0:ℚ) ≤ jsOrNum hc 4 := jsOrNum_nonneg hc 4 (by norm_num) hcores
  have h1 : (0:ℚ) ≤ min (jsOrNum dm 4 / 16) (3/10) :=
    le_min (by positivity) (by norm_num)
  have h2 : (0:ℚ) ≤ min (jsOrNum hc 4 / 8) (1/5) :=
    le_min (by positivity) (by norm_num)
  have hbnd : 1/2 ≤ getDevicePerformanceScore dm hc conn ∧
      getDevicePerformanceScore dm hc conn ≤ 1 := by
    unfold getDevicePerformanceScore
    cases conn with
    | none =>
        refine ⟨le_min (by linarith) (by norm_num), min_le_right _ _⟩
    | some t =>
        have hconn : (0:ℚ) ≤ jsOrNum (lookupQ t effectiveTypes) (1/5) :=
          jsOrNum_nonneg _ _ (by norm_num)
            (fun x hx => lookupQ_effectiveTypes_nonneg t x hx)
        refine ⟨le_min (by linarith) (by norm_num), min_le_right _ _⟩
  refine ⟨hbnd.1, hbnd.2, ?_⟩
  unfold excludedByLowPerformance
  simp only [decide_eq_false_iff_not, not_lt]
  linarith [hbnd.1]

/-- Witness for C10: with every signal absent (all defaults), the score
is within bounds and the exclusion branch is not taken. -/
theorem devicePerformanceScore_default_witness :
    1/2 ≤ getDevicePerformanceScore none none none ∧
      getDevicePerformanceScore none none none ≤ 1 ∧
      excludedByLowPerformance none none none = false :=
  devicePerformanceScore_bounds none none none (fun x hx => nomatch hx)
    (fun x hx => nomatch hx)

/-!
## Regex engine lemmas (for the sanitizer claims)
-/

theorem runLen_le (c : Char → Bool) (S : List Char) :
    ∀ i, runLen c S i ≤ S.length - i := by
  have H : ∀ n i, S.length - i ≤ n → runLen c S i ≤ S.length - i := by
    intro n
    induction n with
    | zero =>
        intro i h
        unfold runLen
        rw [dif_neg (by omega)]
        omega
    | succ n ih =>
        intro i h
        unfold runLen
        split_ifs with h1 h2
        · have := ih (i + 1) (by omega)
          omega
        · omega
        · omega
  exact fun i => H (S.length - i) i le_rfl

theorem runLen_spec (c : Char → Bool) (S : List Char) :
    ∀ i k, k < runLen c S i → c (chAt S (i + k)) = true := by
  have H : ∀ n i, S.length - i ≤ n → ∀ k, k < runLen c S i →
      c (chAt S (i + k)) = true := by
    intro n
    induction n with
    | zero =>
        intro i h k hk
        unfold runLen at hk
        rw [dif_neg (by omega)] at hk
        omega
    | succ n ih =>
        intro i h k hk
        unfold runLen at hk
        split_ifs at hk with h1 h2
        · cases k with
          | zero => simpa using h2
          | succ k =>
              have := ih (i + 1) (by omega) k (by omega)
              have he : i + 1 + k = i + (k + 1) := by omega
              rwa [he] at this
        · omega
        · omega
  exact fun i => H (S.length - i) i le_rfl

theorem runLen_ge (c : Char → Bool) (S : List Char) :
    ∀ t i, i + t ≤ S.length → (∀ k, k < t → c (chAt S (i + k)) = true) →
      t ≤ runLen c S i := by
  intro t
  induction t with
  | zero => intro i _ _; omega
  | succ t ih =>
      intro i hlen hchars
      unfold runLen
      rw [dif_pos (by omega)]
      have h0 : c (chAt S i) = true := by simpa using hchars 0 (by omega)
      rw [if_pos h0]
      have := ih (i + 1) (by omega) (fun k hk => by
        have := hchars (k + 1) (by omega)
        have he : i + (k + 1) = i + 1 + k := by omega
        rwa [he] at this)
      omega

theorem mem_descEnds {i r lo j : Nat} :
    j ∈ descEnds i r lo ↔ ∃ t, lo ≤ t ∧ t ≤ r ∧ j = i + t := by
  unfold descEnds
  simp only [List.mem_map, List.mem_range]
  constructor
  · rintro ⟨k, hk, rfl⟩
    exact ⟨r - k, by omega, by omega, by omega⟩
  · rintro ⟨t, h1, h2, rfl⟩
    exact ⟨r - t, by omega, by omega⟩

theorem mem_atomEnds_one {c : Char → Bool} {S : List Char} {i j : Nat} :
    j ∈ atomEnds (.one c) S i ↔
      (i < S.length ∧ c (chAt S i) = true ∧ j = i + 1) := by
  unfold atomEnds
  dsimp only
  split_ifs with h
  · simp only [Bool.and_eq_true, decide_eq_true_eq] at h
    simp [h.1, h.2, eq_comm]
  · simp only [Bool.and_eq_true, decide_eq_true_eq, not_and] at h
    simp only [List.not_mem_nil, false_iff]
    rintro ⟨h1, h2, _⟩
    exact absurd h2 (by simpa using h h1)

theorem mem_atomEnds_opt {c : Char → Bool} {S : List Char} {i j : Nat} :
    j ∈ atomEnds (.opt c) S i ↔
      (j = i ∨ (i < S.length ∧ c (chAt S i) = true ∧ j = i + 1)) := by
  unfold atomEnds
  dsimp only
  split_ifs with h
  · simp only [Bool.and_eq_true, decide_eq_true_eq] at h
    constructor
    · intro hm
      simp only [List.mem_cons, List.not_mem_nil, or_false] at hm
      rcases hm with rfl | rfl
      · exact Or.inr ⟨h.1, h.2, rfl⟩
      · exact Or.inl rfl
    · rintro (rfl | ⟨_, _, rfl⟩) <;> simp
  · simp only [Bool.and_eq_true, decide_eq_true_eq, not_and] at h
    constructor
    · intro hm; simp at hm; exact Or.inl hm
    · rintro (rfl | ⟨h1, h2, _⟩)
      · simp
      · exact absurd h2 (by simpa using h h1)

theorem mem_atomEnds_plus {c : Char → Bool} {S : List Char} {i j : Nat} :
    j ∈ atomEnds (.plus c) S i ↔
      ∃ t, 1 ≤ t ∧ t ≤ runLen c S i ∧ j = i + t := by
  unfold atomEnds
  dsimp only
  exact mem_descEnds

theorem mem_atomEnds_betw {lo hi : Nat} {c : Char → Bool} {S : List Char}
    {i j : Nat} :
    j ∈ atomEnds (.betw lo hi c) S i ↔
      ∃ t, lo ≤ t ∧ t ≤ min (runLen c S i) hi ∧ j = i + t := by
  unfold atomEnds
  dsimp only
  exact mem_descEnds

theorem mem_atomEnds_grp3 {a b c : Char → Bool} {S : List Char} {i j : Nat} :
    j ∈ atomEnds (.grp3opt a b c) S i ↔
      (j = i ∨
        (i + 1 < S.length ∧ a (chAt S i) = true ∧ b (chAt S (i + 1)) = true ∧
          (j = i + 2 ∨
            (i + 2 < S.length ∧ c (chAt S (i + 2)) = true ∧ j = i + 3)))) := by
  have hdef : atomEnds (.grp3opt a b c) S i =
      (if i + 1 < S.length && a (chAt S i) && b (chAt S (i + 1)) then
        (if i + 2 < S.length && c (chAt S (i + 2)) then [i + 3, i + 2]
         else [i + 2]) ++ [i]
      else [i]) := rfl
  rw [hdef]
  split_ifs with h1 h2
  · simp only [Bool.and_eq_true, decide_eq_true_eq] at h1 h2
    constructor
    · intro hm
      simp only [List.mem_append, List.mem_cons, List.mem_singleton,
        List.not_mem_nil, or_false] at hm
      rcases hm with (rfl | rfl) | rfl
      · exact Or.inr ⟨h1.1.1, h1.1.2, h1.2, Or.inr ⟨h2.1, h2.2, rfl⟩⟩
      · exact Or.inr ⟨h1.1.1, h1.1.2, h1.2, Or.inl rfl⟩
      · exact Or.inl rfl
    · rintro (rfl | ⟨_, _, _, (rfl | ⟨_, _, rfl⟩)⟩) <;> simp
  · simp only [Bool.and_eq_true, decide_eq_true_eq] at h1
    simp only [Bool.and_eq_true, decide_eq_true_eq, not_and] at h2
    constructor
    · intro hm
      simp only [List.mem_append, List.mem_singleton, List.not_mem_nil,
        List.mem_cons, or_false] at hm
      rcases hm with rfl | rfl
      · exact Or.inr ⟨h1.1.1, h1.1.2, h1.2, Or.inl rfl⟩
      · exact Or.inl rfl
    · rintro (rfl | ⟨hx1, hx2, hx3, (rfl | ⟨hy1, hy2, rfl⟩)⟩)
      · simp
      · simp
      · exact absurd hy2 (by simpa using h2 hy1)
  · simp only [Bool.and_eq_true, decide_eq_true_eq, not_and] at h1
    constructor
    · intro hm
      simp at hm
      exact Or.inl hm
    · rintro (rfl | ⟨hx1, hx2, hx3, _⟩)
      · simp
      · exact absurd hx3 (h1 ⟨hx1, hx2⟩)

theorem atomEnds_ge {a : RE} {S : List Char} {i j : Nat}
    (h : j ∈ atomEnds a S i) : i ≤ j := by
  cases a with
  | one c => obtain ⟨_, _, rfl⟩ := mem_atomEnds_one.mp h; omega
  | opt c => rcases mem_atomEnds_opt.mp h with rfl | ⟨_, _, rfl⟩ <;> omega
  | plus c => obtain ⟨t, _, _, rfl⟩ := mem_atomEnds_plus.mp h; omega
  | betw lo hi c => obtain ⟨t, _, _, rfl⟩ := mem_atomEnds_betw.mp h; omega
  | grp3opt a b c =>
      rcases mem_atomEnds_grp3.mp h with rfl | ⟨_, _, _, (rfl | ⟨_, _, rfl⟩)⟩ <;>
        omega

theorem mem_seqEnds_nil {S : List Char} {i j : Nat} :
    j ∈ seqEnds [] S i ↔ j = i := by
  simp [seqEnds]

theorem mem_seqEnds_cons {r : RE} {rs : List RE} {S : List Char} {i j : Nat} :
    j ∈ seqEnds (r :: rs) S i ↔
      ∃ m, m ∈ atomEnds r S i ∧ j ∈ seqEnds rs S m := by
  simp [seqEnds, List.mem_flatMap]

theorem seqEnds_ge {rs : List RE} {S : List Char} :
    ∀ {i j : Nat}, j ∈ seqEnds rs S i → i ≤ j := by
  induction rs with
  | nil => intro i j h; rw [mem_seqEnds_nil] at h; omega
  | cons r rs ih =>
      intro i j h
      obtain ⟨m, hm, hj⟩ := mem_seqEnds_cons.mp h
      exact le_trans (atomEnds_ge hm) (ih hj)

theorem mem_seqEnds_append {xs ys : List RE} {S : List Char} :
    ∀ {i j : Nat}, j ∈ seqEnds (xs ++ ys) S i ↔
      ∃ m, m ∈ seqEnds xs S i ∧ j ∈ seqEnds ys S m := by
  induction xs with
  | nil =>
      intro i j
      simp [mem_seqEnds_nil]
  | cons x xs ih =>
      intro i j
      rw [List.cons_append, mem_seqEnds_cons]
      constructor
      · rintro ⟨m, hm, hj⟩
        obtain ⟨m2, hm2, hj2⟩ := ih.mp hj
        exact ⟨m2, mem_seqEnds_cons.mpr ⟨m, hm, hm2⟩, hj2⟩
      · rintro ⟨m2, hm2, hj2⟩
        obtain ⟨m, hm, hm2b⟩ := mem_seqEnds_cons.mp hm2
        exact ⟨m, hm, ih.mpr ⟨m2, hm2b, hj2⟩⟩

theorem atomEnds_chars {P : Char → Prop} {a : RE} {S : List Char} {i m : Nat}
    (ha : atomAll P a) (hm : m ∈ atomEnds a S i) :
    ∀ k, i ≤ k → k < m → P (chAt S k) := by
  intro k h1 h2
  cases a with
  | one c =>
      obtain ⟨_, hc, rfl⟩ := mem_atomEnds_one.mp hm
      have hk : k = i := by omega
      subst hk
      exact ha _ hc
  | opt c =>
      rcases mem_atomEnds_opt.mp hm with rfl | ⟨_, hc, rfl⟩
      · omega
      · have hk : k = i := by omega
        subst hk
        exact ha _ hc
  | plus c =>
      obtain ⟨t, _, ht, rfl⟩ := mem_atomEnds_plus.mp hm
      have := runLen_spec c S i (k - i) (by omega)
      have he : i + (k - i) = k := by omega
      rw [he] at this
      exact ha _ this
  | betw lo hi c =>
      obtain ⟨t, _, ht, rfl⟩ := mem_atomEnds_betw.mp hm
      have := runLen_spec c S i (k - i) (by omega)
      have he : i + (k - i) = k := by omega
      rw [he] at this
      exact ha _ this
  | grp3opt a b c =>
      obtain ⟨hpa, hpb, hpc⟩ := ha
      rcases mem_atomEnds_grp3.mp hm with rfl | ⟨_, hca, hcb, hrest⟩
      · omega
      · rcases hrest with rfl | ⟨_, hcc, rfl⟩
        · rcases Nat.lt_or_ge k (i + 1) with hk | hk
          · have : k = i := by omega
            subst this; exact hpa _ hca
          · have : k = i + 1 := by omega
            subst this; exact hpb _ hcb
        · rcases Nat.lt_or_ge k (i + 1) with hk | hk
          · have : k = i := by omega
            subst this; exact hpa _ hca
          · rcases Nat.lt_or_ge k (i + 2) with hk2 | hk2
            · have : k = i + 1 := by omega
              subst this; exact hpb _ hcb
            · have : k = i + 2 := by omega
              subst this; exact hpc _ hcc

theorem seqEnds_chars {P : Char → Prop} {rs : List RE} {S : List Char} :
    ∀ {i j : Nat}, (∀ r ∈ rs, atomAll P r) → j ∈ seqEnds rs S i →
      ∀ k, i ≤ k → k < j → P (chAt S k) := by
  induction rs with
  | nil =>
      intro i j _ hj k h1 h2
      rw [mem_seqEnds_nil] at hj
      omega
  | cons r rs ih =>
      intro i j hall hj k h1 h2
      obtain ⟨m, hm, hrest⟩ := mem_seqEnds_cons.mp hj
      rcases Nat.lt_or_ge k m with hk | hk
      · exact atomEnds_chars (hall r (by simp)) hm k h1 hk
      · exact ih (fun r2 h => hall r2 (by simp [h])) hrest k hk h2

theorem skip_mem_atomEnds_opt {c : Char → Bool} {S : List Char} {i : Nat} :
    i ∈ atomEnds (.opt c) S i :=
  mem_atomEnds_opt.mpr (Or.inl rfl)

theorem skip_mem_atomEnds_grp3 {a b c : Char → Bool} {S : List Char} {i : Nat} :
    i ∈ atomEnds (.grp3opt a b c) S i :=
  mem_atomEnds_grp3.mpr (Or.inl rfl)

theorem atomEnds_transfer {a : RE} {S S2 : List Char} {i m : Nat}
    (hlen : S2.length = S.length)
    (hag : ∀ k, i ≤ k → k < m → chAt S2 k = chAt S k)
    (hm : m ∈ atomEnds a S i) : m ∈ atomEnds a S2 i := by
  cases a with
  | one c =>
      obtain ⟨h1, h2, rfl⟩ := mem_atomEnds_one.mp hm
      exact mem_atomEnds_one.mpr
        ⟨by omega, by rw [hag i (by omega) (by omega)]; exact h2, rfl⟩
  | opt c =>
      rcases mem_atomEnds_opt.mp hm with rfl | ⟨h1, h2, rfl⟩
      · exact skip_mem_atomEnds_opt
      · exact mem_atomEnds_opt.mpr
          (Or.inr ⟨by omega, by rw [hag i (by omega) (by omega)]; exact h2, rfl⟩)
  | plus c =>
      obtain ⟨t, h1, h2, rfl⟩ := mem_atomEnds_plus.mp hm
      refine mem_atomEnds_plus.mpr ⟨t, h1, ?_, rfl⟩
      have hrl := runLen_le c S i
      refine runLen_ge c S2 t i (by omega) ?_
      intro k hk
      rw [hag (i + k) (by omega) (by omega)]
      exact runLen_spec c S i k (by omega)
  | betw lo hi c =>
      obtain ⟨t, h1, h2, rfl⟩ := mem_atomEnds_betw.mp hm
      rw [le_min_iff] at h2
      have hrl := runLen_le c S i
      rcases Nat.eq_zero_or_pos t with rfl | hpos
      · exact mem_atomEnds_betw.mpr ⟨0, h1, Nat.zero_le _, rfl⟩
      · refine mem_atomEnds_betw.mpr ⟨t, h1, le_min ?_ h2.2, rfl⟩
        refine runLen_ge c S2 t i (by omega) ?_
        intro k hk
        rw [hag (i + k) (by omega) (by omega)]
        exact runLen_spec c S i k (by omega)
  | grp3opt a b c =>
      rcases mem_atomEnds_grp3.mp hm with rfl | ⟨h1, h2, h3, hrest⟩
      · exact skip_mem_atomEnds_grp3
      · rcases hrest with rfl | ⟨h4, h5, rfl⟩
        · refine mem_atomEnds_grp3.mpr (Or.inr ⟨by omega, ?_, ?_, Or.inl rfl⟩)
          · rw [hag i (by omega) (by omega)]; exact h2
          · rw [hag (i + 1) (by omega) (by omega)]; exact h3
        · refine mem_atomEnds_grp3.mpr
            (Or.inr ⟨by omega, ?_, ?_, Or.inr ⟨by omega, ?_, rfl⟩⟩)
          · rw [hag i (by omega) (by omega)]; exact h2
          · rw [hag (i + 1) (by omega) (by omega)]; exact h3
          · rw [hag (i + 2) (by omega) (by omega)]; exact h5

theorem seqEnds_transfer {rs : List RE} {S S2 : List Char}
    (hlen : S2.length = S.length) :
    ∀ {i j : Nat}, (∀ k, i ≤ k → k < j → chAt S2 k = chAt S k) →
      j ∈ seqEnds rs S i → j ∈ seqEnds rs S2 i := by
  induction rs with
  | nil =>
      intro i j _ hj
      rwa [mem_seqEnds_nil] at hj ⊢
  | cons r rs ih =>
      intro i j hag hj
      obtain ⟨m, hm, hrest⟩ := mem_seqEnds_cons.mp hj
      have hmj : m ≤ j := seqEnds_ge hrest
      have him : i ≤ m := atomEnds_ge hm
      refine mem_seqEnds_cons.mpr ⟨m, ?_, ?_⟩
      · exact atomEnds_transfer hlen (fun k h1 h2 => hag k h1 (by omega)) hm
      · exact ih (fun k h1 h2 => hag k (by omega) h2) hrest

theorem seqEnds_last_plus {front : List RE} {c : Char → Bool} {S : List Char}
    {i j : Nat} (hj : j ∈ seqEnds (front ++ [.plus c]) S i) :
    i < j ∧ j ≤ S.length ∧ c (chAt S (j - 1)) = true := by
  obtain ⟨m, hm, hlast⟩ := mem_seqEnds_append.mp hj
  have him := seqEnds_ge hm
  obtain ⟨m2, hm2, hnil⟩ := mem_seqEnds_cons.mp hlast
  rw [mem_seqEnds_nil] at hnil
  subst hnil
  obtain ⟨t, h1, h2, rfl⟩ := mem_atomEnds_plus.mp hm2
  have hrl := runLen_le c S m
  have hch := runLen_spec c S m (t - 1) (by omega)
  have he : m + (t - 1) = m + t - 1 := by omega
  rw [he] at hch
  exact ⟨by omega, by omega, hch⟩

theorem seqEnds_last_betw {front : List RE} {lo hi : Nat} {c : Char → Bool}
    {S : List Char} {i j : Nat} (hlo : 1 ≤ lo)
    (hj : j ∈ seqEnds (front ++ [.betw lo hi c]) S i) :
    i < j ∧ j ≤ S.length ∧ c (chAt S (j - 1)) = true := by
  obtain ⟨m, hm, hlast⟩ := mem_seqEnds_append.mp hj
  have him := seqEnds_ge hm
  obtain ⟨m2, hm2, hnil⟩ := mem_seqEnds_cons.mp hlast
  rw [mem_seqEnds_nil] at hnil
  subst hnil
  obtain ⟨t, h1, h2, rfl⟩ := mem_atomEnds_betw.mp hm2
  rw [le_min_iff] at h2
  have hrl := runLen_le c S m
  have hch := runLen_spec c S m (t - 1) (by omega)
  have he : m + (t - 1) = m + t - 1 := by omega
  rw [he] at hch
  exact ⟨by omega, by omega, hch⟩

theorem digit_word : ∀ ch, digitChar ch = true → wordChar ch = true := by
  intro ch h
  simp [wordChar, h]

theorem dataPatterns_last_word :
    ∀ p ∈ dataPatterns, ∀ S i j, j ∈ seqEnds p S i →
      i < j ∧ j ≤ S.length ∧ wordChar (chAt S (j - 1)) = true := by
  intro p hp S i j hj
  simp only [dataPatterns, List.mem_cons, List.not_mem_nil, or_false] at hp
  rcases hp with rfl | rfl | rfl | rfl | rfl
  · have he : emailPattern =
        [.plus wdotChar, .one atChar, .plus wdotChar, .one dotChar] ++
          [.plus wordChar] := rfl
    rw [he] at hj
    exact seqEnds_last_plus hj
  · have he : phonePattern =
        [.grp3opt plusSignChar oneDigitChar sepChar, .opt lparChar,
         .betw 3 3 digitChar, .opt rparChar, .opt sepChar,
         .betw 3 3 digitChar, .opt sepChar] ++ [.betw 4 4 digitChar] := rfl
    rw [he] at hj
    obtain ⟨h1, h2, h3⟩ := seqEnds_last_betw (by omega) hj
    exact ⟨h1, h2, digit_word _ h3⟩
  · have he : ssnPattern =
        [.betw 3 3 digitChar, .opt sep2Char, .betw 2 2 digitChar,
         .opt sep2Char] ++ [.betw 4 4 digitChar] := rfl
    rw [he] at hj
    obtain ⟨h1, h2, h3⟩ := seqEnds_last_betw (by omega) hj
    exact ⟨h1, h2, digit_word _ h3⟩
  · have he : creditCardPattern =
        [.betw 4 4 digitChar, .opt sep2Char, .betw 4 4 digitChar,
         .opt sep2Char, .betw 4 4 digitChar, .opt sep2Char] ++
          [.betw 4 4 digitChar] := rfl
    rw [he] at hj
    obtain ⟨h1, h2, h3⟩ := seqEnds_last_betw (by omega) hj
    exact ⟨h1, h2, digit_word _ h3⟩
  · have he : ipAddressPattern =
        [.betw 1 3 digitChar, .one dotChar, .betw 1 3 digitChar, .one dotChar,
         .betw 1 3 digitChar, .one dotChar] ++ [.betw 1 3 digitChar] := rfl
    rw [he] at hj
    obtain ⟨h1, h2, h3⟩ := seqEnds_last_betw (by omega) hj
    exact ⟨h1, h2, digit_word _ h3⟩

theorem classNotMask {c : Char → Bool} (hc : c maskC = false) :
    ∀ ch, c ch = true → ch ≠ maskC := by
  intro ch h hrfl
  subst hrfl
  rw [hc] at h
  exact absurd h (by simp)

theorem dataPatterns_no_mask :
    ∀ p ∈ dataPatterns, ∀ r ∈ p, atomAll (fun ch => ch ≠ maskC) r := by
  intro p hp r hr
  simp only [dataPatterns, List.mem_cons, List.not_mem_nil, or_false] at hp
  rcases hp with rfl | rfl | rfl | rfl | rfl <;>
    (simp only [emailPattern, phonePattern, ssnPattern, creditCardPattern,
       ipAddressPattern, List.mem_cons, List.not_mem_nil, or_false] at hr
     rcases hr with rfl | rfl | rfl | rfl | rfl | rfl | rfl | rfl <;>
       first
         | exact classNotMask (by decide)
         | exact ⟨classNotMask (by decide), classNotMask (by decide),
             classNotMask (by decide)⟩)

theorem maskC_not_word : wordChar maskC = false := by decide

theorem matchAt_some_facts {p : List RE} {S : List Char} {i j : Nat}
    (h : matchAt p S i = some j) :
    boundaryAt S i = true ∧ j ∈ seqEnds p S i ∧ boundaryAt S j = true := by
  unfold matchAt at h
  split_ifs at h with hb
  exact ⟨hb, List.mem_of_find?_eq_some h, List.find?_some h⟩

theorem matchAt_some_of_mem {p : List RE} {S : List Char} {i j : Nat}
    (hb : boundaryAt S i = true) (hj : j ∈ seqEnds p S i)
    (hbj : boundaryAt S j = true) : ∃ j2, matchAt p S i = some j2 := by
  unfold matchAt
  rw [if_pos hb]
  have h2 : ((seqEnds p S i).find? (fun x => boundaryAt S x)).isSome := by
    rw [List.find?_isSome]
    exact ⟨j, hj, hbj⟩
  exact Option.isSome_iff_exists.mp h2

theorem matchAt_bound {p : List RE} (hp : p ∈ dataPatterns) {S : List Char}
    {i j : Nat} (h : matchAt p S i = some j) : i < j ∧ j ≤ S.length := by
  obtain ⟨_, hmem, _⟩ := matchAt_some_facts h
  obtain ⟨h1, h2, _⟩ := dataPatterns_last_word p hp S i j hmem
  exact ⟨h1, h2⟩

theorem chAt_cons_zero {c : Char} {rest : List Char} : chAt (c :: rest) 0 = c := rfl

theorem chAt_cons_succ {c : Char} {rest : List Char} {k : Nat} :
    chAt (c :: rest) (k + 1) = chAt rest k := rfl

theorem chAt_ge {S : List Char} {k : Nat} (h : S.length ≤ k) : chAt S k = ' ' := by
  unfold chAt
  exact List.getD_eq_default _ _ h

theorem chAt_replicate_append {n : Nat} {rest : List Char} :
    ∀ {k : Nat}, k < n → chAt (List.replicate n maskC ++ rest) k = maskC := by
  induction n with
  | zero => intro k hk; omega
  | succ n ih =>
      intro k hk
      rw [List.replicate_succ, List.cons_append]
      cases k with
      | zero => rfl
      | succ k => rw [chAt_cons_succ]; exact ih (by omega)

theorem chAt_replicate_append_ge {n : Nat} {rest : List Char} :
    ∀ {k : Nat}, n ≤ k → chAt (List.replicate n maskC ++ rest) k = chAt rest (k - n) := by
  induction n with
  | zero => intro k _; simp
  | succ n ih =>
      intro k hk
      rw [List.replicate_succ, List.cons_append]
      cases k with
      | zero => omega
      | succ k =>
          rw [chAt_cons_succ, ih (by omega)]
          have he : k - n = k + 1 - (n + 1) := by omega
          rw [he]

theorem scanFrom_length {p : List RE} {S : List Char}
    (hb : ∀ i j, matchAt p S i = some j → j ≤ S.length) :
    ∀ i, (scanFrom p S i).length = S.length - i := by
  have H : ∀ n i, S.length - i ≤ n → (scanFrom p S i).length = S.length - i := by
    intro n
    induction n with
    | zero =>
        intro i h
        unfold scanFrom
        rw [dif_neg (by omega)]
        simp
        omega
    | succ n ih =>
        intro i h
        unfold scanFrom
        split_ifs with h1
        · rcases hm : matchAt p S i with _ | j
          · dsimp only
            simp only [List.length_cons, ih (i + 1) (by omega)]
            omega
          · dsimp only
            have hjl := hb i j hm
            split_ifs with h2
            · simp only [List.length_append, List.length_replicate,
                ih j (by omega)]
              omega
            · simp only [List.length_cons, ih (i + 1) (by omega)]
              omega
        · simp
          omega
  exact fun i => H (S.length - i) i le_rfl

theorem scanFrom_spec {p : List RE} {S : List Char}
    (hcons : ∀ i j, matchAt p S i = some j → i < j ∧ j ≤ S.length) :
    ∀ i k, i ≤ k → k < S.length →
      (chAt (scanFrom p S i) (k - i) = chAt S k ∧ matchAt p S k = none) ∨
      (∃ q j, matchAt p S q = some j ∧ i ≤ q ∧ q ≤ k ∧ k < j ∧
        ∀ k2, q ≤ k2 → k2 < j → chAt (scanFrom p S i) (k2 - i) = maskC) := by
  have H : ∀ n i k, S.length - i ≤ n → i ≤ k → k < S.length →
      (chAt (scanFrom p S i) (k - i) = chAt S k ∧ matchAt p S k = none) ∨
      (∃ q j, matchAt p S q = some j ∧ i ≤ q ∧ q ≤ k ∧ k < j ∧
        ∀ k2, q ≤ k2 → k2 < j → chAt (scanFrom p S i) (k2 - i) = maskC) := by
    intro n
    induction n with
    | zero => intro i k h h1 h2; omega
    | succ n ih =>
        intro i k h h1 h2
        unfold scanFrom
        rw [dif_pos (by omega)]
        rcases hm : matchAt p S i with _ | j
        · dsimp only
          rcases Nat.eq_or_lt_of_le h1 with rfl | hik
          · left
            constructor
            · have he : i - i = 0 := by omega
              rw [he, chAt_cons_zero]
            · exact hm
          · have he : k - i = (k - (i + 1)) + 1 := by omega
            rw [he, chAt_cons_succ]
            rcases ih (i + 1) k (by omega) (by omega) h2 with ⟨ha, hb2⟩ | hR
            · exact Or.inl ⟨ha, hb2⟩
            · obtain ⟨q, j2, hq1, hq2, hq3, hq4, hq5⟩ := hR
              refine Or.inr ⟨q, j2, hq1, by omega, hq3, hq4, ?_⟩
              intro k2 hk1 hk2
              have he2 : k2 - i = (k2 - (i + 1)) + 1 := by omega
              rw [he2, chAt_cons_succ]
              exact hq5 k2 hk1 hk2
        · dsimp only
          obtain ⟨hij, hjlen⟩ := hcons i j hm
          rw [dif_pos hij]
          rcases Nat.lt_or_ge k j with hkj | hkj
          · refine Or.inr ⟨i, j, hm, le_rfl, h1, hkj, ?_⟩
            intro k2 hk1 hk2
            exact chAt_replicate_append (by omega)
          · have hge : j - i ≤ k - i := by omega
            rw [chAt_replicate_append_ge hge]
            have he : k - i - (j - i) = k - j := by omega
            rw [he]
            rcases ih j k (by omega) (by omega) h2 with ⟨ha, hb2⟩ | hR
            · exact Or.inl ⟨ha, hb2⟩
            · obtain ⟨q, j2, hq1, hq2, hq3, hq4, hq5⟩ := hR
              refine Or.inr ⟨q, j2, hq1, by omega, hq3, hq4, ?_⟩
              intro k2 hk1 hk2
              have hge2 : j - i ≤ k2 - i := by omega
              rw [chAt_replicate_append_ge hge2]
              have he2 : k2 - i - (j - i) = k2 - j := by omega
              rw [he2]
              exact hq5 k2 hk1 hk2
  exact fun i k h1 h2 => H (S.length - i) i k le_rfl h1 h2

theorem replacePattern_length {p : List RE} (hp : p ∈ dataPatterns)
    (S : List Char) : (replacePattern p S).length = S.length := by
  unfold replacePattern
  rw [scanFrom_length (fun i j h => (matchAt_bound hp h).2) 0]
  omega

theorem replacePattern_spec {p : List RE} (hp : p ∈ dataPatterns)
    (S : List Char) : ∀ k, k < S.length →
      (chAt (replacePattern p S) k = chAt S k ∧ matchAt p S k = none) ∨
      (∃ q j, matchAt p S q = some j ∧ q ≤ k ∧ k < j ∧
        ∀ k2, q ≤ k2 → k2 < j → chAt (replacePattern p S) k2 = maskC) := by
  intro k hk
  have h := scanFrom_spec (fun i j h => matchAt_bound hp h) 0 k (by omega) hk
  rcases h with ⟨h1, h2⟩ | ⟨q, j, hq1, _, hq3, hq4, hq5⟩
  · left
    constructor
    · have he : k - 0 = k := by omega
      rw [he] at h1
      exact h1
    · exact h2
  · right
    refine ⟨q, j, hq1, hq3, hq4, ?_⟩
    intro k2 hk1 hk2
    have := hq5 k2 hk1 hk2
    have he : k2 - 0 = k2 := by omega
    rwa [he] at this

theorem chAt_replacePattern_or {p : List RE} (hp : p ∈ dataPatterns)
    (S : List Char) (k : Nat) :
    chAt (replacePattern p S) k = chAt S k ∨
      chAt (replacePattern p S) k = maskC := by
  rcases Nat.lt_or_ge k S.length with hk | hk
  · rcases replacePattern_spec hp S k hk with ⟨h1, _⟩ | ⟨q, j, _, hq2, hq3, hall⟩
    · exact Or.inl h1
    · exact Or.inr (hall k hq2 hq3)
  · left
    rw [chAt_ge hk, chAt_ge (by rw [replacePattern_length hp]; omega)]

theorem replacePattern_stab {p : List RE} (hp : p ∈ dataPatterns)
    {S : List Char} {k : Nat} (h : chAt (replacePattern p S) k ≠ maskC) :
    chAt (replacePattern p S) k = chAt S k := by
  rcases chAt_replacePattern_or hp S k with h2 | h2
  · exact h2
  · exact absurd h2 h

theorem replacePattern_maskPersist {p : List RE} (hp : p ∈ dataPatterns)
    {S : List Char} {k : Nat} (h : chAt S k = maskC) :
    chAt (replacePattern p S) k = maskC := by
  rcases chAt_replacePattern_or hp S k with h2 | h2
  · rw [h2, h]
  · exact h2

theorem Steps_length {S T : List Char} (h : Steps S T) : T.length = S.length := by
  induction h with
  | refl => rfl
  | step p S T hp _ ih => rw [ih, replacePattern_length hp]

theorem Steps_stab {S T : List Char} (h : Steps S T) :
    ∀ k, chAt T k ≠ maskC → chAt S k = chAt T k := by
  induction h with
  | refl => intro k _; rfl
  | step p S T hp _ ih =>
      intro k hk
      have h2 := ih k hk
      rw [← h2]
      exact (replacePattern_stab hp (by rw [h2]; exact hk)).symm

theorem Steps_maskPersist {S T : List Char} (h : Steps S T) :
    ∀ k, chAt S k = maskC → chAt T k = maskC := by
  induction h with
  | refl => intro k hk; exact hk
  | step p S T hp _ ih =>
      intro k hk
      exact ih k (replacePattern_maskPersist hp hk)

theorem Steps_origin {S T : List Char} (h : Steps S T) :
    ∀ x, chAt S x ≠ maskC → chAt T x = maskC →
      ∃ p U, p ∈ dataPatterns ∧ Steps S U ∧ Steps (replacePattern p U) T ∧
        chAt U x ≠ maskC ∧ chAt (replacePattern p U) x = maskC := by
  induction h with
  | refl => intro x h1 h2; exact absurd h2 h1
  | step p S T hp hrest ih =>
      intro x h1 h2
      by_cases hm : chAt (replacePattern p S) x = maskC
      · exact ⟨p, S, hp, Steps.refl S, hrest, h1, hm⟩
      · obtain ⟨p2, U, hp2, hSU, hVT, hU, hV⟩ := ih x hm h2
        exact ⟨p2, U, hp2, Steps.step p S U hp hSU, hVT, hU, hV⟩

theorem wordAt_of {S : List Char} {i : Nat} (h : i < S.length) :
    wordAt S i = wordChar (chAt S i) := by
  unfold wordAt
  simp [h]

theorem wordAt_mask {S : List Char} {i : Nat} (h : chAt S i = maskC) :
    wordAt S i = false := by
  unfold wordAt
  rw [h, maskC_not_word]
  simp

theorem boundaryAt_congr {S S2 : List Char} {i : Nat}
    (hlen : S2.length = S.length)
    (hprev : i = 0 ∨ chAt S2 (i - 1) = chAt S (i - 1))
    (hcur : chAt S2 i = chAt S i) :
    boundaryAt S2 i = boundaryAt S i := by
  unfold boundaryAt wordAt
  rw [hlen, hcur]
  rcases hprev with rfl | hprev
  · simp
  · rw [hprev]

theorem boundary_prev_word {S : List Char} {i : Nat} (h0 : 0 < i)
    (hw : wordAt S (i - 1) = true) (hb : boundaryAt S i = true) :
    wordAt S i = false := by
  unfold boundaryAt at hb
  rw [hw, decide_eq_true h0] at hb
  cases hws : wordAt S i
  · rfl
  · rw [hws] at hb
    exact absurd hb (by simp)

theorem boundary_false_of {S : List Char} {i : Nat}
    (h1 : wordAt S (i - 1) = false) (h2 : wordAt S i = false) :
    boundaryAt S i = false := by
  unfold boundaryAt
  rw [h1, h2]
  simp

theorem boundary_true_of_prev {S : List Char} {i : Nat} (h0 : 0 < i)
    (h1 : wordAt S (i - 1) = true) (h2 : wordAt S i = false) :
    boundaryAt S i = true := by
  unfold boundaryAt
  rw [h1, h2, decide_eq_true h0]
  simp

/-- The heart of idempotence: once a pattern's global replace has run
(at any earlier point of the `sanitizeTextPatterns` chain), the pattern
can no longer match anywhere in the final string.  The proof tracks mask
provenance: every masked character comes from a match that was flanked
by word boundaries, which makes a fresh match in the output impossible. -/
theorem noMatchAfter {p : List RE} (hp : p ∈ dataPatterns) {A T : List Char}
    (hT : Steps (replacePattern p A) T) : ∀ i, matchAt p T i = none := by
  intro i
  rcases hmatch : matchAt p T i with _ | j
  · rfl
  exfalso
  have hstepsA : Steps A T := Steps.step p A T hp hT
  obtain ⟨hbi, hmem, hbj⟩ := matchAt_some_facts hmatch
  obtain ⟨hij, hjlen, hlastw⟩ := dataPatterns_last_word p hp T i j hmem
  have hnomask : ∀ k, i ≤ k → k < j → chAt T k ≠ maskC := by
    intro k h1 h2
    exact seqEnds_chars (fun r hr => dataPatterns_no_mask p hp r hr) hmem k h1 h2
  have hlenAT : T.length = A.length := Steps_length hstepsA
  have hag : ∀ k, i ≤ k → k < j → chAt A k = chAt T k :=
    fun k h1 h2 => Steps_stab hstepsA k (hnomask k h1 h2)
  have hiT : i < T.length := by omega
  have hTi : chAt T i ≠ maskC := hnomask i le_rfl hij
  have hTj1 : chAt T (j - 1) ≠ maskC := hnomask (j - 1) (by omega) (by omega)
  have hbiA : boundaryAt A i = true := by
    by_cases hi0 : i = 0
    · subst hi0
      rw [boundaryAt_congr (by omega) (Or.inl rfl) (hag 0 le_rfl hij)]
      exact hbi
    · by_cases heq : chAt A (i - 1) = chAt T (i - 1)
      · rw [boundaryAt_congr (by omega) (Or.inr heq) (hag i le_rfl hij)]
        exact hbi
      · exfalso
        have hTm : chAt T (i - 1) = maskC := by
          by_contra hx
          exact heq (Steps_stab hstepsA (i - 1) hx)
        have hAm : chAt A (i - 1) ≠ maskC := by
          intro hx
          exact heq (by rw [hx, Steps_maskPersist hstepsA (i - 1) hx])
        obtain ⟨p2, U, hp2, hSU, hVT, hU, hV⟩ := Steps_origin hstepsA (i - 1) hAm hTm
        have hlenUT : T.length = U.length := by
          have h1 := Steps_length hVT
          rw [replacePattern_length hp2] at h1
          exact h1
        have hi1U : i - 1 < U.length := by omega
        rcases replacePattern_spec hp2 U (i - 1) hi1U with
          ⟨heq2, _⟩ | ⟨q, j2, hq1, hq2, hq3, hall⟩
        · exact hU (by rw [← heq2]; exact hV)
        · have hVi : chAt (replacePattern p2 U) i = chAt T i := Steps_stab hVT i hTi
          have hj2i : j2 = i := by
            by_contra hne
            have hij2 : i < j2 := by omega
            have hmaski := hall i (by omega) hij2
            rw [hVi] at hmaski
            exact hTi hmaski
          obtain ⟨hbq, hmem2, hbend⟩ := matchAt_some_facts hq1
          obtain ⟨hq4, hq5, hlast2⟩ := dataPatterns_last_word p2 hp2 U q j2 hmem2
          rw [hj2i] at hbend hlast2 hq5
          have hwU : wordAt U (i - 1) = true := by
            rw [wordAt_of (by omega)]
            exact hlast2
          have hwUi : wordAt U i = false := boundary_prev_word (by omega) hwU hbend
          have hUi : chAt U i = chAt T i := by
            have h1 : chAt (replacePattern p2 U) i ≠ maskC := by
              rw [hVi]; exact hTi
            rw [← replacePattern_stab hp2 h1, hVi]
          have hTiw : wordChar (chAt T i) = false := by
            rw [← hUi]
            rw [wordAt_of (by omega : i < U.length)] at hwUi
            exact hwUi
          have hwTm : wordAt T (i - 1) = false := wordAt_mask hTm
          have hbF : boundaryAt T i = false := by
            apply boundary_false_of hwTm
            rw [wordAt_of hiT]
            exact hTiw
          rw [hbF] at hbi
          exact absurd hbi (by simp)
  have hbjA : boundaryAt A j = true := by
    by_cases heq : chAt A j = chAt T j
    · rw [boundaryAt_congr (by omega)
        (Or.inr (hag (j - 1) (by omega) (by omega))) heq]
      exact hbj
    · have hTm : chAt T j = maskC := by
        by_contra hx
        exact heq (Steps_stab hstepsA j hx)
      have hAm : chAt A j ≠ maskC := by
        intro hx
        exact heq (by rw [hx, Steps_maskPersist hstepsA j hx])
      obtain ⟨p3, U2, hp3, hSU2, hV2T, hU2, hV2⟩ := Steps_origin hstepsA j hAm hTm
      have hlenU2T : T.length = U2.length := by
        have h1 := Steps_length hV2T
        rw [replacePattern_length hp3] at h1
        exact h1
      have hjT : j < T.length := by
        have hne : j ≠ T.length := by
          intro hx
          rw [chAt_ge (by omega)] at hTm
          exact absurd hTm (by decide)
        omega
      have hjU2 : j < U2.length := by omega
      rcases replacePattern_spec hp3 U2 j hjU2 with
        ⟨heq2, _⟩ | ⟨q, j3, hq1, hq2, hq3, hall⟩
      · exact absurd (by rw [← heq2]; exact hV2) hU2
      · have hqj : q = j := by
          by_contra hne
          have hq4b : q ≤ j - 1 := by omega
          have hj31 : j - 1 < j3 := by omega
          have hmaskj1 := hall (j - 1) hq4b hj31
          have hVj1 : chAt (replacePattern p3 U2) (j - 1) = chAt T (j - 1) :=
            Steps_stab hV2T (j - 1) hTj1
          rw [hVj1] at hmaskj1
          exact hTj1 hmaskj1
        subst hqj
        obtain ⟨hbq, hmem3, _⟩ := matchAt_some_facts hq1
        obtain ⟨hq4, hq5, _⟩ := dataPatterns_last_word p3 hp3 U2 q j3 hmem3
        have hU2j1 : chAt U2 (q - 1) = chAt T (q - 1) := by
          have hV2j1ne : chAt (replacePattern p3 U2) (q - 1) ≠ maskC := by
            rw [Steps_stab hV2T (q - 1) hTj1]
            exact hTj1
          rw [← replacePattern_stab hp3 hV2j1ne]
          exact Steps_stab hV2T (q - 1) hTj1
        have hwU2 : wordAt U2 (q - 1) = true := by
          rw [wordAt_of (by omega), hU2j1]
          exact hlastw
        have hwU2j : wordAt U2 q = false := boundary_prev_word (by omega) hwU2 hbq
        have hU2jm : chAt U2 q ≠ maskC :=
          seqEnds_chars (fun r hr => dataPatterns_no_mask p3 hp3 r hr) hmem3 q
            le_rfl hq4
        have hAU2 : chAt A q = chAt U2 q := Steps_stab hSU2 q hU2jm
        apply boundary_true_of_prev (by omega)
        · rw [wordAt_of (by omega : q - 1 < A.length),
            hag (q - 1) (by omega) (by omega)]
          exact hlastw
        · rcases Nat.lt_or_ge q A.length with hjA | hjA
          · rw [wordAt_of hjA, hAU2]
            rw [wordAt_of (by omega)] at hwU2j
            exact hwU2j
          · unfold wordAt
            simp [Nat.not_lt.mpr hjA]
  have hmemA : j ∈ seqEnds p A i := seqEnds_transfer (by omega) hag hmem
  obtain ⟨j0, hj0⟩ := matchAt_some_of_mem hbiA hmemA hbjA
  have hBi : chAt (replacePattern p A) i = chAt T i := Steps_stab hT i hTi
  have hiA : i < A.length := by omega
  rcases replacePattern_spec hp A i hiA with ⟨_, hnone⟩ | ⟨q, j2, hq1, hq2, hq3, hall⟩
  · rw [hnone] at hj0
    cases hj0
  · have hmaski := hall i hq2 hq3
    rw [hBi] at hmaski
    exact hTi hmaski

theorem scanFrom_id {p : List RE} {S : List Char}
    (hnone : ∀ i, matchAt p S i = none) : ∀ i, scanFrom p S i = S.drop i := by
  have H : ∀ n i, S.length - i ≤ n → scanFrom p S i = S.drop i := by
    intro n
    induction n with
    | zero =>
        intro i h
        unfold scanFrom
        rw [dif_neg (by omega)]
        exact (List.drop_eq_nil_of_le (by omega)).symm
    | succ n ih =>
        intro i h
        unfold scanFrom
        split_ifs with h1
        · rw [hnone i]
          dsimp only
          rw [ih (i + 1) (by omega)]
          rw [List.drop_eq_getElem_cons h1]
          unfold chAt
          rw [List.getD_eq_getElem _ _ h1]
        · exact (List.drop_eq_nil_of_le (by omega)).symm
  exact fun i => H (S.length - i) i le_rfl

theorem replacePattern_id {p : List RE} {S : List Char}
    (hnone : ∀ i, matchAt p S i = none) : replacePattern p S = S := by
  unfold replacePattern
  rw [scanFrom_id hnone 0, List.drop_zero]

theorem sanitizeTextPatterns_eq (s : List Char) :
    sanitizeTextPatterns s =
      replacePattern ipAddressPattern (replacePattern creditCardPattern
        (replacePattern ssnPattern (replacePattern phonePattern
          (replacePattern emailPattern s)))) := rfl

theorem steps_sanitize (s : List Char) : Steps s (sanitizeTextPatterns s) := by
  rw [sanitizeTextPatterns_eq]
  refine Steps.step emailPattern _ _ (by simp [dataPatterns]) ?_
  refine Steps.step phonePattern _ _ (by simp [dataPatterns]) ?_
  refine Steps.step ssnPattern _ _ (by simp [dataPatterns]) ?_
  refine Steps.step creditCardPattern _ _ (by simp [dataPatterns]) ?_
  refine Steps.step ipAddressPattern _ _ (by simp [dataPatterns]) ?_
  exact Steps.refl _

theorem sanitizeTextPatterns_noMatch (s : List Char) :
    ∀ p ∈ dataPatterns, ∀ i, matchAt p (sanitizeTextPatterns s) i = none := by
  intro p hp i
  simp only [dataPatterns, List.mem_cons, List.not_mem_nil, or_false] at hp
  rcases hp with rfl | rfl | rfl | rfl | rfl
  · refine noMatchAfter (by simp [dataPatterns]) (A := s) ?_ i
    rw [sanitizeTextPatterns_eq]
    refine Steps.step phonePattern _ _ (by simp [dataPatterns]) ?_
    refine Steps.step ssnPattern _ _ (by simp [dataPatterns]) ?_
    refine Steps.step creditCardPattern _ _ (by simp [dataPatterns]) ?_
    refine Steps.step ipAddressPattern _ _ (by simp [dataPatterns]) ?_
    exact Steps.refl _
  · refine noMatchAfter (by simp [dataPatterns])
      (A := replacePattern emailPattern s) ?_ i
    rw [sanitizeTextPatterns_eq]
    refine Steps.step ssnPattern _ _ (by simp [dataPatterns]) ?_
    refine Steps.step creditCardPattern _ _ (by simp [dataPatterns]) ?_
    refine Steps.step ipAddressPattern _ _ (by simp [dataPatterns]) ?_
    exact Steps.refl _
  · refine noMatchAfter (by simp [dataPatterns])
      (A := replacePattern phonePattern (replacePattern emailPattern s)) ?_ i
    rw [sanitizeTextPatterns_eq]
    refine Steps.step creditCardPattern _ _ (by simp [dataPatterns]) ?_
    refine Steps.step ipAddressPattern _ _ (by simp [dataPatterns]) ?_
    exact Steps.refl _
  · refine noMatchAfter (by simp [dataPatterns])
      (A := replacePattern ssnPattern (replacePattern phonePattern
        (replacePattern emailPattern s))) ?_ i
    rw [sanitizeTextPatterns_eq]
    refine Steps.step ipAddressPattern _ _ (by simp [dataPatterns]) ?_
    exact Steps.refl _
  · refine noMatchAfter (by simp [dataPatterns])
      (A := replacePattern creditCardPattern (replacePattern ssnPattern
        (replacePattern phonePattern (replacePattern emailPattern s)))) ?_ i
    rw [sanitizeTextPatterns_eq]
    exact Steps.refl _

theorem sanitizeTextPatterns_idem (s : List Char) :
    sanitizeTextPatterns (sanitizeTextPatterns s) = sanitizeTextPatterns s := by
  have h := sanitizeTextPatterns_noMatch s
  rw [sanitizeTextPatterns_eq (sanitizeTextPatterns s)]
  rw [replacePattern_id (h emailPattern (by simp [dataPatterns]))]
  rw [replacePattern_id (h phonePattern (by simp [dataPatterns]))]
  rw [replacePattern_id (h ssnPattern (by simp [dataPatterns]))]
  rw [replacePattern_id (h creditCardPattern (by simp [dataPatterns]))]
  rw [replacePattern_id (h ipAddressPattern (by simp [dataPatterns]))]

theorem Steps_maskOr {S T : List Char} (h : Steps S T) :
    ∀ k, chAt T k = chAt S k ∨ chAt T k = maskC := by
  induction h with
  | refl => intro k; exact Or.inl rfl
  | step p S T hp _ ih =>
      intro k
      rcases ih k with h1 | h1
      · rcases chAt_replacePattern_or hp S k with h2 | h2
        · exact Or.inl (h1.trans h2)
        · exact Or.inr (h1.trans h2)
      · exact Or.inr h1

theorem maskValue_of_masked (v : JSValue) :
    maskValue (.strV (maskValue v)) = maskValue v := by
  cases v <;> simp [maskValue, jsString]

mutual
theorem sanitizeValueE_fix (v : JSValue) :
    ∀ r, sanitizeValueE v = .ok r → sanitizeValueE r = .ok r := by
  cases v with
  | null => intro r h; injection h with h2; subst h2; rfl
  | undef => intro r h; injection h with h2; subst h2; rfl
  | boolV b => intro r h; injection h with h2; subst h2; rfl
  | numV n => intro r h; injection h with h2; subst h2; rfl
  | exotic e => intro r h; exact Except.noConfusion h
  | strV s =>
      intro r h
      simp only [sanitizeValueE] at h
      injection h with h2
      subst h2
      simp only [sanitizeValueE, sanitizeTextPatterns_idem]
  | arrV xs =>
      intro r h
      simp only [sanitizeValueE] at h
      rcases hl : sanitizeListE xs with e | ys
      · rw [hl] at h; exact Except.noConfusion h
      · rw [hl] at h
        injection h with h2
        subst h2
        have hfix := sanitizeListE_fix xs ys hl
        simp only [sanitizeValueE, hfix]
  | objV fs =>
      intro r h
      simp only [sanitizeValueE] at h
      rcases hl : sanitizeFieldsE fs with e | gs
      · rw [hl] at h; exact Except.noConfusion h
      · rw [hl] at h
        injection h with h2
        subst h2
        have hfix := sanitizeFieldsE_fix fs gs hl
        simp only [sanitizeValueE, hfix]
theorem sanitizeListE_fix (xs : List JSValue) :
    ∀ ys, sanitizeListE xs = .ok ys → sanitizeListE ys = .ok ys := by
  cases xs with
  | nil => intro ys h; injection h with h2; subst h2; rfl
  | cons x xs =>
      intro ys h
      simp only [sanitizeListE] at h
      rcases hv : sanitizeValueE x with e | y
      · rw [hv] at h; exact Except.noConfusion h
      · rw [hv] at h
        rcases hl : sanitizeListE xs with e | ys2
        · rw [hl] at h; exact Except.noConfusion h
        · rw [hl] at h
          injection h with h2
          subst h2
          have h1 := sanitizeValueE_fix x y hv
          have h2 := sanitizeListE_fix xs ys2 hl
          simp only [sanitizeListE, h1, h2]
theorem sanitizeFieldsE_fix (fs : List (List Char × JSValue)) :
    ∀ gs, sanitizeFieldsE fs = .ok gs → sanitizeFieldsE gs = .ok gs := by
  cases fs with
  | nil => intro gs h; injection h with h2; subst h2; rfl
  | cons kv fs =>
      obtain ⟨k, v⟩ := kv
      intro gs h
      simp only [sanitizeFieldsE] at h
      by_cases hs : isSensitiveField k = true
      · rw [if_pos hs] at h
        rcases hl : sanitizeFieldsE fs with e | gs2
        · rw [hl] at h; exact Except.noConfusion h
        · rw [hl] at h
          injection h with h2
          subst h2
          have hfix := sanitizeFieldsE_fix fs gs2 hl
          simp only [sanitizeFieldsE, if_pos hs, hfix, maskValue_of_masked]
      · rw [if_neg hs] at h
        rcases hv : sanitizeValueE v with e | w
        · rw [hv] at h; exact Except.noConfusion h
        · rw [hv] at h
          rcases hl : sanitizeFieldsE fs with e | gs2
          · rw [hl] at h; exact Except.noConfusion h
          · rw [hl] at h
            injection h with h2
            subst h2
            have h1 := sanitizeValueE_fix v w hv
            have h2 := sanitizeFieldsE_fix fs gs2 hl
            simp only [sanitizeFieldsE, if_neg hs, h1, h2]
end

/-- C2: `sanitizeTextPatterns` replaces every pattern match by the mask
character repeated to the exact length of the match, so the sanitized
string has the same length as the input and every output position holds
either the original character or the mask character. -/
theorem sanitizeTextPatterns_length_preserved (s : List Char) :
    (sanitizeTextPatterns s).length = s.length ∧
      ∀ k, chAt (sanitizeTextPatterns s) k = chAt s k ∨
        chAt (sanitizeTextPatterns s) k = maskC :=
  ⟨Steps_length (steps_sanitize s), Steps_maskOr (steps_sanitize s)⟩

/-- C6: `sanitizeData` applied to its own output returns that output
unchanged — for strings, arrays and nested objects alike (masking a
masked value changes nothing further). -/
theorem sanitizeData_idem (debug : Bool) (v : JSValue) :
    (sanitizeData debug (sanitizeData debug v).1).1 = (sanitizeData debug v).1 := by
  cases v with
  | null => rfl
  | undef => rfl
  | boolV b => rfl
  | numV n => rfl
  | exotic e => rfl
  | strV s =>
      simp only [sanitizeData, sanitizeValueE]
      rw [sanitizeTextPatterns_idem]
  | arrV xs =>
      rcases hl : sanitizeListE xs with e | ys
      · simp [sanitizeData, sanitizeValueE, hl]
      · have hfix := sanitizeListE_fix xs ys hl
        simp [sanitizeData, sanitizeValueE, hl, hfix]
  | objV fs =>
      rcases hl : sanitizeFieldsE fs with e | gs
      · simp [sanitizeData, sanitizeValueE, hl]
      · have hfix := sanitizeFieldsE_fix fs gs hl
        simp [sanitizeData, sanitizeValueE, hl, hfix]
